import Mathlib

/-!
Shallow embedding of the candidate-generation / filtering / priority-merge
pipeline of `src/app.py` (a Streamlit product-recommender demo), together
with theorems settling the specification claims about it.

Conventions of the embedding:
* Python dictionaries keyed by strings or ints become Lean functions into
  `Option`; a `.get(k, default)` becomes `Option.getD`.
* Python `try/except` around an external computation is modelled with
  `Except`: the untrusted body is an `Except Unit _` value and the handler
  pattern-matches on it.  Code with no handler is a computation in `Except`
  whose errors propagate.
* The external ML artifacts (the ALS model, the sklearn label encoders)
  are opaque: they appear as function-valued fields of the context `Ctx`.
  `item_le : String → Option Nat` models `item_le.transform` (raising for
  an unknown id is `none`); `item_le_inv : Nat → String` models a
  successful `item_le.inverse_transform` call.
-/

/-- Product metadata record, the dict built from `prod_meta.csv` rows in
`load_artifacts` (`title`, `category_id`, `brand`, `price`). -/
structure Meta where
  title : String
  category_id : String
  brand : String
  price : String
deriving DecidableEq, Repr

/-- The all-empty metadata record returned by `get_meta_by_item_id` when
both lookups miss: `{"title":"", "category_id":"", "brand":"", "price":""}`. -/
def emptyMeta : Meta := ⟨"", "", "", ""⟩

/-- The read-only artifact state loaded once at startup (`load_artifacts`),
restricted to what the request pipeline reads. -/
structure Ctx where
  /-- `item_le.transform([item_id])[0]` — `none` models the encoder raising
  on an unknown id. -/
  item_le : String → Option Nat
  /-- `item_le.inverse_transform([code])[0]` on the success path. -/
  item_le_inv : Nat → String
  /-- `prod_meta_index`, keyed by item code. -/
  prod_meta_index : Nat → Option Meta
  /-- `prod_meta_by_itemid`, keyed by item id. -/
  prod_meta_by_itemid : String → Option Meta
  /-- `cat_rel_map`: category → set of related categories (a membership
  list; Python uses a `set`, only membership is observable). -/
  cat_rel_map : String → Option (List String)
  /-- `co_view_top`: item code → ordered related codes. -/
  co_view_top : Nat → List Nat
  /-- `popular_items`: global ordered popularity list of codes. -/
  popular_items : List Nat
  /-- `als_recommend` as a black box over the opaque ALS model:
  user id and requested count to an item-id list. -/
  als_recommend_fn : String → Nat → List String

/-- `get_meta_by_item_id` (src/app.py lines 135–146): translate the id to a
code and look it up in `prod_meta_index`; on encoder failure or a missing
entry fall back to `prod_meta_by_itemid`; if that also misses, return the
all-empty record. -/
def get_meta_by_item_id (ctx : Ctx) (item_id : String) : Meta :=
  match ctx.item_le item_id with
  | some code =>
    match ctx.prod_meta_index code with
    | some meta => meta
    | none => (ctx.prod_meta_by_itemid item_id).getD emptyMeta
  | none => (ctx.prod_meta_by_itemid item_id).getD emptyMeta

/-- `filter_by_categories` (lines 167–175): identity when
`allowed_categories is None`; otherwise the loop
`out = []; for it in candidates: if meta.category_id in allowed: out.append(it)`. -/
def filter_by_categories (ctx : Ctx) (candidate_item_ids : List String)
    (allowed_categories : Option (List String)) : List String :=
  match allowed_categories with
  | none => candidate_item_ids
  | some allowed =>
    candidate_item_ids.foldl
      (fun out it =>
        if (get_meta_by_item_id ctx it).category_id ∈ allowed then out ++ [it] else out)
      []

/-- `co_view_recommend` (lines 159–165): translate the item id to a code
(an encoder failure is caught and yields `[]`), take the first `N` related
codes and translate them back. -/
def co_view_recommend (ctx : Ctx) (item_id : String) (N : Nat) : List String :=
  match ctx.item_le item_id with
  | none => []
  | some code => ((ctx.co_view_top code).take N).map ctx.item_le_inv

/-- The inline popularity pool (line 219):
`[inv(i) for i in popular_items[:N*6]] if popular_items else []`
on the success path of the translations. -/
def pop_cands (ctx : Ctx) (N : Nat) : List String :=
  if ctx.popular_items = [] then []
  else (ctx.popular_items.take (N * 6)).map ctx.item_le_inv

/-- The allowed-categories derivation (lines 207–214): `None` (no
restriction) unless `item_id_input` is nonempty and resolves to a nonempty
`category_id`; then the current category together with its related ones. -/
def allowed_categories (ctx : Ctx) (item_id_input : String) : Option (List String) :=
  if item_id_input = "" then none
  else
    let curr_cat := (get_meta_by_item_id ctx item_id_input).category_id
    if curr_cat = "" then none
    else some (curr_cat :: (ctx.cat_rel_map curr_cat).getD [])

/-- One dedup-append step of the merge loops:
`if it not in final: final.append(it)`, folded over a list. -/
def addNew {α : Type} [DecidableEq α] : List α → List α → List α
  | acc, [] => acc
  | acc, x :: xs => addNew (if x ∈ acc then acc else acc ++ [x]) xs

/-- The inner merge loop over one group (lines 229–233 and 239–243):
append each unseen item and break as soon as `len(final) >= N`. -/
def mergeGroup {α : Type} [DecidableEq α] (N : Nat) : List α → List α → List α
  | acc, [] => acc
  | acc, x :: xs =>
    let acc1 := if x ∈ acc then acc else acc ++ [x]
    if N ≤ acc1.length then acc1 else mergeGroup N acc1 xs

/-- The outer loop over the priority-ordered groups (lines 228–235), with
the `if len(final) >= N: break` check after each group. -/
def mergeGroups {α : Type} [DecidableEq α] (N : Nat) : List α → List (List α) → List α
  | acc, [] => acc
  | acc, g :: gs =>
    let acc1 := mergeGroup N acc g
    if N ≤ acc1.length then acc1 else mergeGroups N acc1 gs

/-- The complete merge (lines 227–243): priority pass over
`(als_f, co_f, pop_f)`, then the unfiltered-popularity backfill pass run
only `if len(final) < N`. -/
def merge {α : Type} [DecidableEq α]
    (als_f co_f pop_f pop_cands : List α) (N : Nat) : List α :=
  let final := mergeGroups N [] [als_f, co_f, pop_f]
  if final.length < N then mergeGroup N final pop_cands else final

/-- The whole request pipeline after the button press (lines 207–243),
from artifact state and form inputs to the final merged item-id list. -/
def pipeline_final (ctx : Ctx) (user_id_input item_id_input : String) (N : Nat) :
    List String :=
  let allowed := allowed_categories ctx item_id_input
  let als_cands := ctx.als_recommend_fn user_id_input (N * 4)
  let co_cands := co_view_recommend ctx item_id_input (N * 4)
  let popC := pop_cands ctx N
  let als_f := filter_by_categories ctx als_cands allowed
  let co_f := filter_by_categories ctx co_cands allowed
  let pop_f := filter_by_categories ctx popC allowed
  merge als_f co_f pop_f popC N

/-- The per-item attribution computed in the "Why these?" loop
(lines 250–257). -/
def reason (als_f co_f : List String) (it : String) : String :=
  if it ∈ als_f then "Personalized (ALS)"
  else if it ∈ co_f then "Co-view"
  else "Popular"

section MergeLemmas

variable {α : Type} [DecidableEq α]

theorem addNew_append (acc : List α) (l₁ l₂ : List α) :
    addNew acc (l₁ ++ l₂) = addNew (addNew acc l₁) l₂ := by
  induction l₁ generalizing acc with
  | nil => simp [addNew]
  | cons x xs ih => simp only [List.cons_append, addNew]; exact ih _

theorem addNew_eq_append (acc : List α) (l : List α) :
    ∃ t, addNew acc l = acc ++ t := by
  induction l generalizing acc with
  | nil => exact ⟨[], by simp [addNew]⟩
  | cons x xs ih =>
    by_cases hx : x ∈ acc
    · simpa [addNew, hx] using ih acc
    · obtain ⟨t, ht⟩ := ih (acc ++ [x])
      exact ⟨x :: t, by simp [addNew, hx, ht]⟩

theorem mem_addNew {acc l : List α} {y : α} :
    y ∈ addNew acc l ↔ y ∈ acc ∨ y ∈ l := by
  induction l generalizing acc with
  | nil => simp [addNew]
  | cons x xs ih =>
    by_cases hx : x ∈ acc
    · simp only [addNew, hx, if_pos, List.mem_cons, ih]
      constructor
      · rintro (h | h)
        · exact Or.inl h
        · exact Or.inr (Or.inr h)
      · rintro (h | h | h)
        · exact Or.inl h
        · exact Or.inl (h ▸ hx)
        · exact Or.inr h
    · simp only [addNew, hx, if_neg, not_false_iff, ih, List.mem_append,
        List.mem_singleton, List.mem_cons]
      tauto

theorem nodup_addNew {acc : List α} (l : List α) (h : acc.Nodup) :
    (addNew acc l).Nodup := by
  induction l generalizing acc with
  | nil => exact h
  | cons x xs ih =>
    by_cases hx : x ∈ acc
    · simpa [addNew, hx] using ih h
    · have hnd : (acc ++ [x]).Nodup := by
        refine List.Nodup.append h (List.nodup_singleton x) ?_
        intro a ha hb
        rw [List.mem_singleton] at hb
        exact hx (hb ▸ ha)
      simpa [addNew, hx] using ih hnd

theorem length_addNew_nil (l : List α) :
    (addNew ([] : List α) l).length = l.toFinset.card := by
  have hnd : (addNew ([] : List α) l).Nodup := nodup_addNew l List.nodup_nil
  have hfin : (addNew ([] : List α) l).toFinset = l.toFinset := by
    ext a
    simp [List.mem_toFinset, mem_addNew]
  calc (addNew ([] : List α) l).length
      = (addNew ([] : List α) l).toFinset.card :=
        (List.toFinset_card_of_nodup hnd).symm
    _ = l.toFinset.card := by rw [hfin]

theorem mergeGroup_eq {N : Nat} {acc : List α} (l : List α)
    (h : acc.length < N) : mergeGroup N acc l = (addNew acc l).take N := by
  induction l generalizing acc with
  | nil =>
    simp only [mergeGroup, addNew]
    exact (List.take_of_length_le (Nat.le_of_lt h)).symm
  | cons x xs ih =>
    simp only [mergeGroup, addNew]
    set acc1 := if x ∈ acc then acc else acc ++ [x] with hacc1
    have hlen : acc1.length ≤ N := by
      by_cases hx : x ∈ acc
      · simp only [hacc1, hx, if_pos]; exact Nat.le_of_lt h
      · simp only [hacc1, hx, if_neg, not_false_iff, List.length_append,
          List.length_singleton]
        exact h
    by_cases hN : N ≤ acc1.length
    · rw [if_pos hN]
      have heq : acc1.length = N := Nat.le_antisymm hlen hN
      obtain ⟨t, ht⟩ := addNew_eq_append acc1 xs
      rw [ht, List.take_append_eq_append_take, heq, Nat.sub_self,
        List.take_zero, List.append_nil]
      exact (List.take_of_length_le (Nat.le_of_eq heq)).symm
    · rw [if_neg hN]
      exact ih (Nat.lt_of_not_le hN)

theorem mergeGroups_eq {N : Nat} {acc : List α} (gs : List (List α))
    (h : acc.length < N) :
    mergeGroups N acc gs = (addNew acc gs.flatten).take N := by
  induction gs generalizing acc with
  | nil =>
    simp only [mergeGroups, List.flatten_nil, addNew]
    exact (List.take_of_length_le (Nat.le_of_lt h)).symm
  | cons g gs ih =>
    simp only [mergeGroups, List.flatten_cons]
    rw [mergeGroup_eq g h, addNew_append]
    by_cases hN : N ≤ ((addNew acc g).take N).length
    · rw [if_pos hN]
      rw [List.length_take] at hN
      have hNB : N ≤ (addNew acc g).length := le_trans hN (Nat.min_le_right _ _)
      obtain ⟨t, ht⟩ := addNew_eq_append (addNew acc g) gs.flatten
      rw [ht, List.take_append_eq_append_take, Nat.sub_eq_zero_of_le hNB,
        List.take_zero, List.append_nil]
    · rw [if_neg hN]
      rw [List.length_take] at hN
      have hBN : (addNew acc g).length < N := by
        rcases Nat.lt_or_ge (addNew acc g).length N with hlt | hge
        · exact hlt
        · rw [Nat.min_eq_left hge] at hN
          exact absurd (le_refl N) hN
      rw [List.take_of_length_le (Nat.le_of_lt hBN)]
      exact ih hBN

theorem merge_eq (a c p q : List α) {N : Nat} (hN : 1 ≤ N) :
    merge a c p q N = (addNew [] (a ++ c ++ p ++ q)).take N := by
  have h0 : ([] : List α).length < N := by simpa using hN
  unfold merge
  rw [mergeGroups_eq [a, c, p] h0]
  have hjoin : ([a, c, p] : List (List α)).flatten = a ++ c ++ p := by simp
  rw [hjoin]
  rw [addNew_append ([] : List α) (a ++ c ++ p) q]
  by_cases hlt : ((addNew ([] : List α) (a ++ c ++ p)).take N).length < N
  · rw [if_pos hlt]
    rw [List.length_take] at hlt
    have hBN : (addNew ([] : List α) (a ++ c ++ p)).length < N := by
      rcases Nat.lt_or_ge (addNew ([] : List α) (a ++ c ++ p)).length N with hl | hge
      · exact hl
      · rw [Nat.min_eq_left hge] at hlt
        exact absurd hlt (lt_irrefl N)
    rw [List.take_of_length_le (Nat.le_of_lt hBN)]
    exact mergeGroup_eq q hBN
  · rw [if_neg hlt]
    rw [List.length_take, Nat.not_lt] at hlt
    have hNB : N ≤ (addNew ([] : List α) (a ++ c ++ p)).length :=
      le_trans hlt (Nat.min_le_right _ _)
    obtain ⟨t, ht⟩ := addNew_eq_append (addNew ([] : List α) (a ++ c ++ p)) q
    rw [ht, List.take_append_eq_append_take, Nat.sub_eq_zero_of_le hNB,
      List.take_zero, List.append_nil]

theorem mem_mergeGroup {N : Nat} {y : α} {acc l : List α}
    (h : y ∈ mergeGroup N acc l) : y ∈ acc ∨ y ∈ l := by
  induction l generalizing acc with
  | nil => exact Or.inl h
  | cons x xs ih =>
    simp only [mergeGroup] at h
    by_cases hx : x ∈ acc
    · rw [if_pos hx] at h
      split at h
      · exact Or.inl h
      · rcases ih h with h' | h'
        · exact Or.inl h'
        · exact Or.inr (List.mem_cons_of_mem x h')
    · rw [if_neg hx] at h
      split at h
      · rcases List.mem_append.mp h with h' | h'
        · exact Or.inl h'
        · exact Or.inr (by simp [List.mem_singleton.mp h'])
      · rcases ih h with h' | h'
        · rcases List.mem_append.mp h' with h'' | h''
          · exact Or.inl h''
          · exact Or.inr (by simp [List.mem_singleton.mp h''])
        · exact Or.inr (List.mem_cons_of_mem x h')

theorem mem_mergeGroups {N : Nat} {y : α} {acc : List α} {gs : List (List α)}
    (h : y ∈ mergeGroups N acc gs) : y ∈ acc ∨ ∃ g ∈ gs, y ∈ g := by
  induction gs generalizing acc with
  | nil => exact Or.inl h
  | cons g gs ih =>
    simp only [mergeGroups] at h
    split at h
    · rcases mem_mergeGroup h with h' | h'
      · exact Or.inl h'
      · exact Or.inr ⟨g, List.mem_cons_self g gs, h'⟩
    · rcases ih h with h' | h'
      · rcases mem_mergeGroup h' with h'' | h''
        · exact Or.inl h''
        · exact Or.inr ⟨g, List.mem_cons_self g gs, h''⟩
      · obtain ⟨g', hg', hy⟩ := h'
        exact Or.inr ⟨g', List.mem_cons_of_mem g hg', hy⟩

theorem mem_merge {y : α} {a c p q : List α} {N : Nat}
    (h : y ∈ merge a c p q N) : y ∈ a ∨ y ∈ c ∨ y ∈ p ∨ y ∈ q := by
  have hgroups : ∀ {acc : List α}, y ∈ mergeGroups N acc [a, c, p] →
      y ∈ acc ∨ y ∈ a ∨ y ∈ c ∨ y ∈ p := by
    intro acc hy
    rcases mem_mergeGroups hy with h' | ⟨g, hg, hyg⟩
    · exact Or.inl h'
    · rcases List.mem_cons.mp hg with rfl | hg
      · exact Or.inr (Or.inl hyg)
      rcases List.mem_cons.mp hg with rfl | hg
      · exact Or.inr (Or.inr (Or.inl hyg))
      rcases List.mem_cons.mp hg with rfl | hg
      · exact Or.inr (Or.inr (Or.inr hyg))
      · exact absurd hg (List.not_mem_nil g)
  simp only [merge] at h
  split at h
  · rcases mem_mergeGroup h with h' | h'
    · rcases hgroups h' with h'' | h''
      · exact absurd h'' (List.not_mem_nil y)
      · rcases h'' with h'' | h'' | h''
        · exact Or.inl h''
        · exact Or.inr (Or.inl h'')
        · exact Or.inr (Or.inr (Or.inl h''))
    · exact Or.inr (Or.inr (Or.inr h'))
  · rcases hgroups h with h'' | h''
    · exact absurd h'' (List.not_mem_nil y)
    · rcases h'' with h'' | h'' | h''
      · exact Or.inl h''
      · exact Or.inr (Or.inl h'')
      · exact Or.inr (Or.inr (Or.inl h''))

end MergeLemmas

/-- First-occurrence position of `x` in a list (`l.index(x)` in Python
terms); used to state "appears before". -/
def firstPos {α : Type} [DecidableEq α] (x : α) : List α → Nat
  | [] => 0
  | y :: l => if y = x then 0 else firstPos x l + 1

section FirstPos

variable {α : Type} [DecidableEq α]

theorem firstPos_append_left {x : α} {l₁ : List α} (l₂ : List α) (h : x ∈ l₁) :
    firstPos x (l₁ ++ l₂) = firstPos x l₁ := by
  induction l₁ with
  | nil => exact absurd h (List.not_mem_nil x)
  | cons y ys ih =>
    by_cases hy : y = x
    · simp [firstPos, hy]
    · have hx : x ∈ ys := by
        rcases List.mem_cons.mp h with h' | h'
        · exact absurd h'.symm hy
        · exact h'
      simp [firstPos, hy, ih hx]

theorem firstPos_append_right {x : α} {l₁ : List α} (l₂ : List α) (h : x ∉ l₁) :
    firstPos x (l₁ ++ l₂) = l₁.length + firstPos x l₂ := by
  induction l₁ with
  | nil => simp
  | cons y ys ih =>
    have hy : y ≠ x := fun hxy => h (hxy ▸ List.mem_cons_self y ys)
    have hx : x ∉ ys := fun hxs => h (List.mem_cons_of_mem y hxs)
    show (if y = x then 0 else firstPos x (ys ++ l₂) + 1)
        = (y :: ys).length + firstPos x l₂
    rw [if_neg hy, ih hx, List.length_cons]
    omega

theorem firstPos_lt_length {x : α} {l : List α} (h : x ∈ l) :
    firstPos x l < l.length := by
  induction l with
  | nil => exact absurd h (List.not_mem_nil x)
  | cons y ys ih =>
    by_cases hy : y = x
    · simp [firstPos, hy]
    · have hx : x ∈ ys := by
        rcases List.mem_cons.mp h with h' | h'
        · exact absurd h'.symm hy
        · exact h'
      simp only [firstPos, hy, if_neg, not_false_iff, List.length_cons]
      exact Nat.succ_lt_succ (ih hx)

theorem firstPos_take {x : α} {l : List α} {n : Nat} (h : x ∈ l.take n) :
    firstPos x (l.take n) = firstPos x l := by
  induction l generalizing n with
  | nil => simp at h
  | cons y ys ih =>
    cases n with
    | zero => simp at h
    | succ m =>
      by_cases hy : y = x
      · simp [firstPos, hy]
      · have hx : x ∈ ys.take m := by
          rw [List.take_succ_cons] at h
          rcases List.mem_cons.mp h with h' | h'
          · exact absurd h'.symm hy
          · exact h'
        simp [firstPos, hy, ih hx]

end FirstPos

/-- C1: for every requested count `N` (the UI slider range gives `1 ≤ N`)
and every quadruple of candidate lists, the merged result's length equals
`min N (number of distinct item ids in the union of the four lists)`; in
particular, with the three filtered groups empty and the unfiltered
popularity list `[p1, p2]` at `N = 5`, the result is `[p1, p2]`. -/
theorem merge_length_min_distinct :
    (∀ (N : Nat) (als_f co_f pop_f popC : List String), 1 ≤ N →
      (merge als_f co_f pop_f popC N).length =
        min N (als_f ++ co_f ++ pop_f ++ popC).toFinset.card) ∧
    merge [] [] [] ["p1", "p2"] 5 = ["p1", "p2"] := by
  constructor
  · intro N a c p q hN
    rw [merge_eq a c p q hN, List.length_take, length_addNew_nil]
  · rfl

theorem merge_length_min_distinct_witness :
    (1 : Nat) ≤ 5 ∧
      (merge [] [] [] ["p1", "p2"] 5).length =
        min 5 ((([] : List String) ++ [] ++ [] ++ ["p1", "p2"]).toFinset.card) :=
  ⟨by decide, merge_length_min_distinct.1 5 [] [] [] ["p1", "p2"] (by decide)⟩

/-- C2: for every requested count `N ≥ 1` and every quadruple of input
candidate lists, the merged result (after the backfill pass) has no
duplicate item ids and length at most `N`. -/
theorem merge_nodup_length_le (N : Nat) (als_f co_f pop_f popC : List String)
    (hN : 1 ≤ N) :
    (merge als_f co_f pop_f popC N).Nodup ∧
      (merge als_f co_f pop_f popC N).length ≤ N := by
  rw [merge_eq als_f co_f pop_f popC hN]
  constructor
  · exact List.Nodup.sublist (List.take_sublist _ _)
      (nodup_addNew _ List.nodup_nil)
  · rw [List.length_take]
    exact Nat.min_le_left _ _

theorem merge_nodup_length_le_witness :
    (1 : Nat) ≤ 2 ∧
      ((merge ["a"] ["b"] [] ([] : List String) 2).Nodup ∧
        (merge ["a"] ["b"] [] ([] : List String) 2).length ≤ 2) :=
  ⟨by decide, merge_nodup_length_le 2 ["a"] ["b"] [] [] (by decide)⟩

/-- C3: priority invariant of the merge — an item `x` occurring in the
personalized-filtered group but not the co-view-filtered group appears in
the merged result strictly before any item `y` occurring in the
co-view-filtered group but not the personalized-filtered group, whenever
both made it into the result. -/
theorem merge_priority (N : Nat) (als_f co_f pop_f popC : List String)
    (x y : String) (hN : 1 ≤ N)
    (hxa : x ∈ als_f) (hxc : x ∉ co_f) (hyc : y ∈ co_f) (hya : y ∉ als_f)
    (hxm : x ∈ merge als_f co_f pop_f popC N)
    (hym : y ∈ merge als_f co_f pop_f popC N) :
    firstPos x (merge als_f co_f pop_f popC N) <
      firstPos y (merge als_f co_f pop_f popC N) := by
  rw [merge_eq als_f co_f pop_f popC hN] at hxm hym ⊢
  rw [firstPos_take hxm, firstPos_take hym]
  have hassoc : als_f ++ co_f ++ pop_f ++ popC
      = als_f ++ (co_f ++ pop_f ++ popC) := by
    simp [List.append_assoc]
  rw [hassoc, addNew_append ([] : List String) als_f (co_f ++ pop_f ++ popC)]
  obtain ⟨t, ht⟩ := addNew_eq_append (addNew [] als_f) (co_f ++ pop_f ++ popC)
  rw [ht]
  have hxA : x ∈ addNew ([] : List String) als_f := mem_addNew.mpr (Or.inr hxa)
  have hyA : y ∉ addNew ([] : List String) als_f := by
    intro hy
    rcases mem_addNew.mp hy with h | h
    · exact List.not_mem_nil y h
    · exact hya h
  rw [firstPos_append_left t hxA, firstPos_append_right t hyA]
  exact Nat.lt_of_lt_of_le (firstPos_lt_length hxA) (Nat.le_add_right _ _)

theorem merge_priority_witness :
    (1 : Nat) ≤ 3 ∧ "a" ∈ ["a"] ∧ "a" ∉ ["b"] ∧ "b" ∈ ["b"] ∧ "b" ∉ ["a"] ∧
      "a" ∈ merge ["a"] ["b"] [] ([] : List String) 3 ∧
      "b" ∈ merge ["a"] ["b"] [] ([] : List String) 3 ∧
      firstPos "a" (merge ["a"] ["b"] [] ([] : List String) 3) <
        firstPos "b" (merge ["a"] ["b"] [] ([] : List String) 3) :=
  ⟨by decide, by decide, by decide, by decide, by decide, by decide, by decide,
    merge_priority 3 ["a"] ["b"] [] [] "a" "b" (by decide) (by decide)
      (by decide) (by decide) (by decide) (by decide) (by decide)⟩

theorem filter_by_categories_eq_filter (ctx : Ctx) (cands : List String)
    (allowed : List String) :
    filter_by_categories ctx cands (some allowed) =
      cands.filter
        (fun it => decide ((get_meta_by_item_id ctx it).category_id ∈ allowed)) := by
  show cands.foldl _ [] = _
  suffices h : ∀ out : List String,
      cands.foldl
        (fun out it =>
          if (get_meta_by_item_id ctx it).category_id ∈ allowed
          then out ++ [it] else out) out
        = out ++ cands.filter
            (fun it => decide ((get_meta_by_item_id ctx it).category_id ∈ allowed)) by
    simpa using h []
  induction cands with
  | nil => intro out; simp
  | cons x xs ih =>
    intro out
    by_cases hx : (get_meta_by_item_id ctx x).category_id ∈ allowed
    · simp [hx, ih, List.filter_cons]
    · simp [hx, ih, List.filter_cons]

theorem mem_filter_by_categories {ctx : Ctx} {cands : List String}
    {allowed : Option (List String)} {x : String}
    (h : x ∈ filter_by_categories ctx cands allowed) : x ∈ cands := by
  cases allowed with
  | none => exact h
  | some s =>
    rw [filter_by_categories_eq_filter] at h
    exact (List.mem_filter.mp h).1

/-- C5: with the no-restriction sentinel (`allowed_categories is None`) the
category filter is the identity on the candidate list. -/
theorem filter_by_categories_none (ctx : Ctx) (cands : List String) :
    filter_by_categories ctx cands none = cands := rfl

/-- C6: with an actual allowed set, the filter's output is exactly the
stable in-order subsequence of the candidates whose resolved
`category_id` lies in the allowed set. -/
theorem filter_by_categories_some (ctx : Ctx) (cands : List String)
    (allowed : List String) :
    filter_by_categories ctx cands (some allowed) =
      cands.filter
        (fun it => decide ((get_meta_by_item_id ctx it).category_id ∈ allowed)) ∧
    List.Sublist (filter_by_categories ctx cands (some allowed)) cands ∧
    (∀ it, it ∈ filter_by_categories ctx cands (some allowed) ↔
      it ∈ cands ∧ (get_meta_by_item_id ctx it).category_id ∈ allowed) := by
  refine ⟨filter_by_categories_eq_filter ctx cands allowed, ?_, ?_⟩
  · rw [filter_by_categories_eq_filter]
    exact List.filter_sublist cands
  · intro it
    rw [filter_by_categories_eq_filter, List.mem_filter]
    simp

/-- C7: the metadata resolver never raises; when the code-indexed lookup
cannot succeed (unknown id or missing entry) it falls back to the
item-id-indexed table, and when that also misses it returns the all-empty
record. -/
theorem get_meta_by_item_id_fallback (ctx : Ctx) (item_id : String) :
    ((∀ code, ctx.item_le item_id = some code →
        ctx.prod_meta_index code = none) →
      get_meta_by_item_id ctx item_id
        = (ctx.prod_meta_by_itemid item_id).getD emptyMeta) ∧
    (ctx.item_le item_id = none →
      get_meta_by_item_id ctx item_id
        = (ctx.prod_meta_by_itemid item_id).getD emptyMeta) ∧
    ((∀ code, ctx.item_le item_id = some code →
        ctx.prod_meta_index code = none) →
      ctx.prod_meta_by_itemid item_id = none →
      get_meta_by_item_id ctx item_id = emptyMeta) := by
  have hmain : (∀ code, ctx.item_le item_id = some code →
      ctx.prod_meta_index code = none) →
      get_meta_by_item_id ctx item_id
        = (ctx.prod_meta_by_itemid item_id).getD emptyMeta := by
    intro h
    unfold get_meta_by_item_id
    cases hle : ctx.item_le item_id with
    | none => rfl
    | some code =>
      show (match ctx.prod_meta_index code with
        | some meta => meta
        | none => (ctx.prod_meta_by_itemid item_id).getD emptyMeta)
          = (ctx.prod_meta_by_itemid item_id).getD emptyMeta
      rw [h code hle]
  refine ⟨hmain, ?_, ?_⟩
  · intro h
    refine hmain ?_
    intro code hc
    rw [h] at hc
    cases hc
  · intro h hby
    rw [hmain h, hby]
    rfl

/-- An artifact state in which every lookup misses (empty encoder and
tables); used to exhibit the resolver's all-empty fallback concretely. -/
def ctxNone : Ctx where
  item_le := fun _ => none
  item_le_inv := fun _ => ""
  prod_meta_index := fun _ => none
  prod_meta_by_itemid := fun _ => none
  cat_rel_map := fun _ => none
  co_view_top := fun _ => []
  popular_items := []
  als_recommend_fn := fun _ _ => []

theorem get_meta_by_item_id_fallback_witness :
    get_meta_by_item_id ctxNone "x" = emptyMeta :=
  (get_meta_by_item_id_fallback ctxNone "x").2.2 (fun _ hc => by cases hc) rfl

/-- C8: the attribution reported in the "Why these?" loop is the
personalized label when the item is in the personalized-filtered group,
else the co-view label when in the co-view-filtered group, else the
popularity label; instantiated on the spec's scenario. -/
theorem reason_spec :
    (∀ (als_f co_f : List String) (it : String),
      (it ∈ als_f → reason als_f co_f it = "Personalized (ALS)") ∧
      (it ∉ als_f → it ∈ co_f → reason als_f co_f it = "Co-view") ∧
      (it ∉ als_f → it ∉ co_f → reason als_f co_f it = "Popular")) ∧
    ["p3", "p7", "p9", "p1"].map (reason ["p3", "p7"] ["p7", "p9"])
      = ["Personalized (ALS)", "Personalized (ALS)", "Co-view", "Popular"] := by
  constructor
  · intro als_f co_f it
    refine ⟨?_, ?_, ?_⟩
    · intro h; simp [reason, h]
    · intro h1 h2; simp [reason, h1, h2]
    · intro h1 h2; simp [reason, h1, h2]
  · rfl

theorem reason_spec_witness :
    "p3" ∈ ["p3", "p7"] ∧
      reason ["p3", "p7"] ["p7", "p9"] "p3" = "Personalized (ALS)" :=
  ⟨by decide, (reason_spec.1 ["p3", "p7"] ["p7", "p9"] "p3").1 (by decide)⟩

/-- `als_recommend` with its `try/except` (lines 148–157), over an opaque
body: `user_known` is `user_id in user_le.classes_`; the body (encoder
transform, `model.recommend`, inverse transforms) is an arbitrary
`Except`-valued computation, and any error it raises is converted to `[]`. -/
def als_recommendE (user_known : Bool) (body : Except Unit (List String)) :
    Except Unit (List String) :=
  if user_known then
    match body with
    | Except.ok l => Except.ok l
    | Except.error _ => Except.ok []
  else Except.ok []

/-- `co_view_recommend` with its `try/except` (lines 159–165), over an
opaque body. -/
def co_view_recommendE (body : Except Unit (List String)) :
    Except Unit (List String) :=
  match body with
  | Except.ok l => Except.ok l
  | Except.error _ => Except.ok []

/-- The list comprehension `[inv(i) for i in codes]`: translation is
applied element by element and an exception propagates. -/
def translate_all (inv : Nat → Except Unit String) :
    List Nat → Except Unit (List String)
  | [] => Except.ok []
  | c :: cs =>
    match inv c with
    | Except.error e => Except.error e
    | Except.ok s =>
      match translate_all inv cs with
      | Except.error e => Except.error e
      | Except.ok rest => Except.ok (s :: rest)

/-- The inline popularity pool of line 219, with exception propagation
made explicit: unlike the two generator functions, this expression has no
surrounding `try/except`, so a failing `inverse_transform` escapes. -/
def pop_candsE (inv : Nat → Except Unit String) (popular_items : List Nat)
    (N : Nat) : Except Unit (List String) :=
  if popular_items = [] then Except.ok []
  else translate_all inv (popular_items.take (N * 6))

/-- C4 counterexample: the popularity pool construction (line 219) has no
exception handler; with a popularity list `[0]` and a code-to-item-id
translation that raises on code `0`, the pipeline step errors instead of
degrading to an empty candidate list. -/
theorem pop_cands_exception_escapes :
    pop_candsE (fun _ => Except.error ()) [0] 1 = Except.error () := rfl

/-- C4 amended: exceptions inside the personalized and co-view candidate
generators are caught locally and converted to an empty candidate list,
and those two generators never propagate an error; the popularity pool's
translation (line 219) is outside any handler and is not covered. -/
theorem generators_catch_locally (user_known : Bool)
    (body : Except Unit (List String)) :
    (body = Except.error () →
      als_recommendE user_known body = Except.ok [] ∧
        co_view_recommendE body = Except.ok []) ∧
    (∃ l, als_recommendE user_known body = Except.ok l) ∧
    (∃ l, co_view_recommendE body = Except.ok l) := by
  refine ⟨?_, ?_, ?_⟩
  · rintro rfl
    cases user_known <;> exact ⟨rfl, rfl⟩
  · cases user_known with
    | false => exact ⟨[], rfl⟩
    | true =>
      cases body with
      | ok l => exact ⟨l, rfl⟩
      | error e => exact ⟨[], rfl⟩
  · cases body with
    | ok l => exact ⟨l, rfl⟩
    | error e => exact ⟨[], rfl⟩

theorem generators_catch_locally_witness :
    als_recommendE true (Except.error ()) = Except.ok [] ∧
      co_view_recommendE (Except.error ()) = Except.ok [] :=
  (generators_catch_locally true (Except.error ())).1 rfl

/-- An artifact state whose popularity list has 13 entries — one more than
the `6·N = 12` the pipeline consumes at `N = 2` — whose first twelve codes
all decode to the same item id, and whose generators are empty. -/
def ctxShort : Ctx where
  item_le := fun _ => none
  item_le_inv := fun c => if c = 12 then "w" else "z"
  prod_meta_index := fun _ => none
  prod_meta_by_itemid := fun _ => none
  cat_rel_map := fun _ => none
  co_view_top := fun _ => []
  popular_items := [0, 1, 2, 3, 4, 5, 6, 7, 8, 9, 10, 11, 12]
  als_recommend_fn := fun _ _ => []

/-- C9: the pipeline asks the personalized and co-view generators for at
most `4·N` candidates and takes at most the first `6·N` popularity codes
(the personalized bound presumes the model honours its requested count,
stated as a hypothesis on the opaque generator); the merge and backfill
only draw from these three pools; and concretely, at `N = 2` with
`ctxShort`, the result is shorter than `N` although the popularity list
has a 13th entry beyond the first `6·N = 12`. -/
theorem pipeline_bounded_pools :
    (∀ (ctx : Ctx) (user item : String) (N : Nat),
      (∀ u k, (ctx.als_recommend_fn u k).length ≤ k) →
      (ctx.als_recommend_fn user (N * 4)).length ≤ 4 * N ∧
      (co_view_recommend ctx item (N * 4)).length ≤ 4 * N ∧
      (pop_cands ctx N).length ≤ 6 * N ∧
      (∀ x ∈ pipeline_final ctx user item N,
        x ∈ ctx.als_recommend_fn user (N * 4) ∨
        x ∈ co_view_recommend ctx item (N * 4) ∨
        x ∈ pop_cands ctx N)) ∧
    (6 * 2 < ctxShort.popular_items.length ∧
      (pipeline_final ctxShort "" "" 2).length < 2) := by
  constructor
  · intro ctx user item N hals
    refine ⟨?_, ?_, ?_, ?_⟩
    · exact le_trans (hals user (N * 4)) (by omega)
    · cases hle : ctx.item_le item with
      | none => simp [co_view_recommend, hle]
      | some code =>
        simp only [co_view_recommend, hle, List.length_map]
        refine le_trans ?_ (show N * 4 ≤ 4 * N by omega)
        rw [List.length_take]
        exact Nat.min_le_left _ _
    · by_cases hp : ctx.popular_items = []
      · simp [pop_cands, hp]
      · simp only [pop_cands, hp, if_neg, not_false_iff, List.length_map]
        refine le_trans ?_ (show N * 6 ≤ 6 * N by omega)
        rw [List.length_take]
        exact Nat.min_le_left _ _
    · intro x hx
      simp only [pipeline_final] at hx
      rcases mem_merge hx with h | h | h | h
      · exact Or.inl (mem_filter_by_categories h)
      · exact Or.inr (Or.inl (mem_filter_by_categories h))
      · exact Or.inr (Or.inr (mem_filter_by_categories h))
      · exact Or.inr (Or.inr h)
  · exact ⟨by decide, by decide⟩

theorem pipeline_bounded_pools_witness :
    ("z" ∈ ctxShort.als_recommend_fn "" (2 * 4) ∨
      "z" ∈ co_view_recommend ctxShort "" (2 * 4) ∨
      "z" ∈ pop_cands ctxShort 2) ∧
    (pop_cands ctxShort 2).length ≤ 6 * 2 :=
  ⟨(pipeline_bounded_pools.1 ctxShort "" "" 2
      (fun u k => by simp [ctxShort])).2.2.2 "z" (by decide),
    (pipeline_bounded_pools.1 ctxShort "" "" 2
      (fun u k => by simp [ctxShort])).2.2.1⟩

/-- An artifact state whose category-relationship table maps category "A"
to the set containing only the empty string — what `load_artifacts`
produces when the `related_category` column is missing (the row default
`""`); item `p1` has category "A" and item `x` has no metadata at all. -/
def ctxBad : Ctx where
  item_le := fun _ => none
  item_le_inv := fun _ => ""
  prod_meta_index := fun _ => none
  prod_meta_by_itemid := fun id =>
    if id = "p1" then some ⟨"t", "A", "b", "9"⟩ else none
  cat_rel_map := fun c => if c = "A" then some [""] else none
  co_view_top := fun _ => []
  popular_items := []
  als_recommend_fn := fun _ _ => []

/-- C10 counterexample: with `ctxBad` and reference item `p1` a category
restriction is active, yet the allowed set contains the empty string
(nothing sanitises `cat_rel_map`), so the candidate `x`, whose metadata
cannot be resolved (its resolved `category_id` is `""`), survives the
category filter instead of being removed. -/
theorem empty_category_can_pass_filter :
    allowed_categories ctxBad "p1" = some ["A", ""] ∧
    (get_meta_by_item_id ctxBad "x").category_id = "" ∧
    filter_by_categories ctxBad ["x"] (allowed_categories ctxBad "p1")
      = ["x"] :=
  ⟨rfl, rfl, rfl⟩

/-- C10 amended: whenever a category restriction is active, the allowed
set is built from a non-empty reference `category_id`; and provided the
category-relationship map contains no empty-string entries (the code does
not enforce this), the allowed set never contains the empty string and
every candidate whose metadata cannot be resolved is removed by the
filter. -/
theorem active_restriction_filters_unresolved (ctx : Ctx) (item : String)
    (s : List String)
    (hclean : ∀ cat l, ctx.cat_rel_map cat = some l → ("" : String) ∉ l)
    (hs : allowed_categories ctx item = some s) :
    ("" : String) ∉ s ∧
    (∃ rc, rc ≠ "" ∧ s = rc :: (ctx.cat_rel_map rc).getD []) ∧
    (∀ (cands : List String) (it : String),
      (get_meta_by_item_id ctx it).category_id = "" →
      it ∉ filter_by_categories ctx cands (some s)) := by
  simp only [allowed_categories] at hs
  by_cases hitem : item = ""
  · rw [if_pos hitem] at hs
    cases hs
  · rw [if_neg hitem] at hs
    by_cases hcat : (get_meta_by_item_id ctx item).category_id = ""
    · rw [if_pos hcat] at hs
      cases hs
    · rw [if_neg hcat] at hs
      have hs' : s = (get_meta_by_item_id ctx item).category_id ::
          (ctx.cat_rel_map (get_meta_by_item_id ctx item).category_id).getD [] :=
        (Option.some.inj hs).symm
      have hnotin : ("" : String) ∉ s := by
        rw [hs']
        intro hmem
        rcases List.mem_cons.mp hmem with h | h
        · exact hcat h.symm
        · cases hrel : ctx.cat_rel_map (get_meta_by_item_id ctx item).category_id with
          | none => rw [hrel] at h; simp at h
          | some l =>
            rw [hrel] at h
            exact hclean _ l hrel (by simpa using h)
      refine ⟨hnotin, ⟨_, hcat, hs'⟩, ?_⟩
      intro cands it hit hmem
      rw [filter_by_categories_eq_filter] at hmem
      have h2 := (List.mem_filter.mp hmem).2
      rw [hit] at h2
      exact hnotin (of_decide_eq_true h2)

/-- Like `ctxBad` but with a sane category-relationship table, to witness
the amended C10 on a concrete input. -/
def ctxGood : Ctx where
  item_le := fun _ => none
  item_le_inv := fun _ => ""
  prod_meta_index := fun _ => none
  prod_meta_by_itemid := fun id =>
    if id = "p1" then some ⟨"t", "A", "b", "9"⟩ else none
  cat_rel_map := fun c => if c = "A" then some ["B"] else none
  co_view_top := fun _ => []
  popular_items := []
  als_recommend_fn := fun _ _ => []

theorem active_restriction_filters_unresolved_witness :
    ("" : String) ∉ ["A", "B"] ∧
      "x" ∉ filter_by_categories ctxGood ["x"] (some ["A", "B"]) := by
  have hclean : ∀ cat l, ctxGood.cat_rel_map cat = some l →
      ("" : String) ∉ l := by
    intro cat l hl
    simp only [ctxGood] at hl
    split at hl
    · injection hl with h'
      subst h'
      decide
    · cases hl
  have h := active_restriction_filters_unresolved ctxGood "p1" ["A", "B"]
    hclean rfl
  exact ⟨h.1, h.2.2 ["x"] "x" rfl⟩
